import Mathlib

/-!
Verification of the core Datalog engine of a caveat-evaluation library.

The development is a shallow embedding of the two source files
(`lib.rs` and `expression.rs`):

* machine integers (`i64`, `u32`, `u64`) are modelled as `Int`/`Nat`,
  with explicit wrap-around (`% 2 ^ 64`, `% 2 ^ 32`) where the source
  relies on two's-complement overflow;
* `HashSet`/`HashMap` are modelled as lists with membership-aware
  insertion and positional lookup (iteration order of a hash container
  is unspecified in the source; a list fixes one order);
* fallible paths (`panic!`, out-of-bounds indexing) are modelled by
  `Option`, with `none` standing for an aborted computation;
* the external regex engine is a parameter `rx : String → String → Bool`
  (the source's "invalid pattern never matches" is absorbed by the
  parameter);
* the wall clock used for the `Timeout` limit is a parameter
  `tmo : Nat → Bool` giving, for each iteration count, whether the
  deadline has passed.
-/

namespace Datalog

/-- Alias for the booleans, needed because `ID` has a constructor named
`Bool` whose payload is a boolean. -/
abbrev BoolT := Bool

/-- The tagged atomic value type (`enum ID` in the source).
Byte strings are lists of naturals, dates are seconds since the epoch. -/
inductive ID where
  | Symbol (s : Nat)
  | Variable (v : Nat)
  | Integer (i : Int)
  | Str (s : String)
  | Date (d : Nat)
  | Bytes (b : List Nat)
  | Bool (b : BoolT)
deriving DecidableEq

/-- A named tuple of values (`struct Predicate`). -/
structure Predicate where
  name : Nat
  ids : List ID
deriving DecidableEq

/-- A fact is a predicate stored in the world (`struct Fact`). -/
structure Fact where
  predicate : Predicate
deriving DecidableEq

/-- The per-pair test of `match_preds` (the closure passed to `all` in the
source): variables match anything, and only symbols, integers, strings and
dates have an equality arm; every other pair falls into the default arm. -/
def match_preds_pair (fid pid : ID) : Bool :=
  match fid, pid with
  | _, ID.Variable _ => true
  | ID.Variable _, _ => true
  | ID.Symbol i, ID.Symbol j => i == j
  | ID.Integer i, ID.Integer j => i == j
  | ID.Str i, ID.Str j => i == j
  | ID.Date i, ID.Date j => i == j
  | _, _ => false

/-- Definition of `match_preds` from the source: names equal, arities equal, and every
zipped pair of arguments passes `match_preds_pair`. -/
def match_preds (pred1 pred2 : Predicate) : Bool :=
  pred1.name == pred2.name
    && pred1.ids.length == pred2.ids.length
    && (pred1.ids.zip pred2.ids).all fun pr => match_preds_pair pr.1 pr.2

/-- Modelled from the spec's wording of the matching relation: either side a
variable, or same tag and equal payload, for all seven tags (including
`Bytes` and `Bool`).  Used to compare the spec's claim with `match_preds`. -/
def specPairMatches (f q : ID) : Bool :=
  match f, q with
  | ID.Variable _, _ => true
  | _, ID.Variable _ => true
  | ID.Symbol i, ID.Symbol j => i == j
  | ID.Integer i, ID.Integer j => i == j
  | ID.Str i, ID.Str j => i == j
  | ID.Date i, ID.Date j => i == j
  | ID.Bytes i, ID.Bytes j => i == j
  | ID.Bool i, ID.Bool j => i == j
  | _, _ => false

/-- Modelled from the spec: the full §4.1 matching relation. -/
def specMatches (p q : Predicate) : Bool :=
  p.name == q.name
    && p.ids.length == q.ids.length
    && (p.ids.zip q.ids).all fun pr => specPairMatches pr.1 pr.2

/-- Tag test: is the value a `Variable`? -/
def ID.isVariable : ID → BoolT
  | ID.Variable _ => true
  | _ => false

/-- Tag test: is the value a `Symbol`? -/
def ID.isSymbol : ID → BoolT
  | ID.Symbol _ => true
  | _ => false

/-- Tag test: does the value carry one of the four tags that have an
equality arm in `match_preds` and `query` (symbol, integer, string, date)? -/
def ID.isAtomicMatchTag : ID → BoolT
  | ID.Symbol _ => true
  | ID.Integer _ => true
  | ID.Str _ => true
  | ID.Date _ => true
  | _ => false

/-- Two's-complement 64-bit wrap-around: the unique representative of
`n` modulo `2 ^ 64` lying in `[-2 ^ 63, 2 ^ 63)`.  Models release-mode
`i64` arithmetic, which the source relies on (no overflow check). -/
def wrap64 (n : Int) : Int :=
  (n + 2 ^ 63) % 2 ^ 64 - 2 ^ 63

/-- A complete environment produced by `MatchedVariables::complete`
(a `HashMap<u32, ID>` in the source), as an association list. -/
abbrev Env := List (Nat × ID)

/-- Lookup in an environment (`HashMap::get`). -/
def envLookup (env : Env) (k : Nat) : Option ID :=
  match env with
  | [] => none
  | (a, v) :: rest => if a = k then some v else envLookup rest k

/-- Unary stack operations (`enum Unary`). -/
inductive Unary where
  | Negate
deriving DecidableEq

/-- Model of `Unary::evaluate`: arithmetic negation (`-1 * i`, wrapping) on
integers, logical negation on booleans, a type-mismatch failure
otherwise. -/
def Unary.evaluate (u : Unary) (value : ID) : Option ID :=
  match u, value with
  | Unary.Negate, ID.Integer i => some (ID.Integer (wrap64 (-1 * i)))
  | Unary.Negate, ID.Bool b => some (ID.Bool (!b))
  | _, _ => none

/-- Binary stack operations (`enum Binary`). -/
inductive Binary where
  | LessThan
  | GreaterThan
  | Add
  | And
deriving DecidableEq

/-- Model of `Binary::evaluate(left, right)`: comparisons and wrapping addition on
integers, conjunction on booleans, a type-mismatch failure otherwise. -/
def Binary.evaluate (b : Binary) (left right : ID) : Option ID :=
  match b, left, right with
  | Binary.LessThan, ID.Integer i, ID.Integer j => some (ID.Bool (decide (i < j)))
  | Binary.GreaterThan, ID.Integer i, ID.Integer j => some (ID.Bool (decide (i > j)))
  | Binary.Add, ID.Integer i, ID.Integer j => some (ID.Integer (wrap64 (i + j)))
  | Binary.And, ID.Bool i, ID.Bool j => some (ID.Bool (i && j))
  | _, _, _ => none

/-- One opcode of the stack machine (`enum Op`). -/
inductive Op where
  | Value (id : ID)
  | Unary (u : Unary)
  | Binary (b : Binary)
deriving DecidableEq

/-- A stack expression (`struct Expression`). -/
structure Expression where
  ops : List Op
deriving DecidableEq

/-- The opcode loop of `Expression::evaluate`.  The stack is a list with
its head as the top (Rust `Vec` push/pop at the end).  `none` models the
early `return None` paths: unbound variable, stack underflow, and type
mismatch inside an operator. -/
def evalOps (values : Env) : List Op → List ID → Option (List ID)
  | [], stack => some stack
  | op :: rest, stack =>
    match op with
    | Op.Value (ID.Variable i) =>
      match envLookup values i with
      | some id => evalOps values rest (id :: stack)
      | none => none
    | Op.Value id => evalOps values rest (id :: stack)
    | Op.Unary u =>
      match stack with
      | [] => none
      | id :: tail =>
        match u.evaluate id with
        | some res => evalOps values rest (res :: tail)
        | none => none
    | Op.Binary b =>
      match stack with
      | right :: left :: tail =>
        match b.evaluate left right with
        | some res => evalOps values rest (res :: tail)
        | none => none
      | _ => none

/-- Model of `Expression::evaluate`: run the opcodes on an empty stack and succeed
exactly when the final stack holds a single value, which is returned. -/
def Expression.evaluate (e : Expression) (values : Env) : Option ID :=
  match evalOps values e.ops [] with
  | some [v] => some v
  | _ => none

/-- Integer constraints (`enum IntConstraint`); sets are lists. -/
inductive IntConstraint where
  | LessThan (j : Int)
  | GreaterThan (j : Int)
  | LessOrEqual (j : Int)
  | GreaterOrEqual (j : Int)
  | Equal (j : Int)
  | In (h : List Int)
  | NotIn (h : List Int)
deriving DecidableEq

/-- String constraints (`enum StrConstraint`). -/
inductive StrConstraint where
  | Prefix (s : String)
  | Suffix (s : String)
  | Equal (s : String)
  | In (h : List String)
  | NotIn (h : List String)
  | Regex (r : String)
deriving DecidableEq

/-- Date constraints (`enum DateConstraint`). -/
inductive DateConstraint where
  | Before (b : Nat)
  | After (b : Nat)
deriving DecidableEq

/-- Symbol constraints (`enum SymbolConstraint`). -/
inductive SymbolConstraint where
  | In (h : List Nat)
  | NotIn (h : List Nat)
deriving DecidableEq

/-- Byte-string constraints (`enum BytesConstraint`). -/
inductive BytesConstraint where
  | Equal (b : List Nat)
  | In (h : List (List Nat))
  | NotIn (h : List (List Nat))
deriving DecidableEq

/-- Constraint kinds (`enum ConstraintKind`). -/
inductive ConstraintKind where
  | Int (c : IntConstraint)
  | Str (c : StrConstraint)
  | Date (c : DateConstraint)
  | Symbol (c : SymbolConstraint)
  | Bytes (c : BytesConstraint)
deriving DecidableEq

/-- A constraint (`struct Constraint`): a target variable id and a kind. -/
structure Constraint where
  id : Nat
  kind : ConstraintKind
deriving DecidableEq

/-- Model of `Constraint::check`.  `rx` is the external regex engine
(`rx pattern s`; an invalid pattern never matching is absorbed by `rx`).
`none` models the source's panic on a `Variable` value; `some b` is the
boolean verdict, trivially `true` when the target id differs. -/
def Constraint.check (rx : String → String → Bool) (c : Constraint)
    (name : Nat) (id : ID) : Option Bool :=
  if name ≠ c.id then some true
  else
    match id, c.kind with
    | ID.Variable _, _ => none
    | ID.Integer i, ConstraintKind.Int ic =>
      match ic with
      | IntConstraint.LessThan j => some (decide (i < j))
      | IntConstraint.GreaterThan j => some (decide (i > j))
      | IntConstraint.LessOrEqual j => some (decide (i ≤ j))
      | IntConstraint.GreaterOrEqual j => some (decide (i ≥ j))
      | IntConstraint.Equal j => some (i == j)
      | IntConstraint.In h => some (h.contains i)
      | IntConstraint.NotIn h => some (!h.contains i)
    | ID.Str s, ConstraintKind.Str sc =>
      match sc with
      | StrConstraint.Prefix pref => some (s.startsWith pref)
      | StrConstraint.Suffix suff => some (s.endsWith suff)
      | StrConstraint.Equal s2 => some (s == s2)
      | StrConstraint.Regex r => some (rx r s)
      | StrConstraint.In h => some (h.contains s)
      | StrConstraint.NotIn h => some (!h.contains s)
    | ID.Date d, ConstraintKind.Date dc =>
      match dc with
      | DateConstraint.Before b => some (decide (d ≤ b))
      | DateConstraint.After b => some (decide (d ≥ b))
    | ID.Symbol s, ConstraintKind.Symbol sc =>
      match sc with
      | SymbolConstraint.In h => some (h.contains s)
      | SymbolConstraint.NotIn h => some (!h.contains s)
    | ID.Bytes s, ConstraintKind.Bytes bc =>
      match bc with
      | BytesConstraint.Equal s2 => some (s == s2)
      | BytesConstraint.In h => some (h.contains s)
      | BytesConstraint.NotIn h => some (!h.contains s)
    | _, _ => some false

/-- A rule (`struct Rule`): head, body, constraints and expressions. -/
structure Rule where
  head : Predicate
  body : List Predicate
  constraints : List Constraint
  expressions : List Expression
deriving DecidableEq

/-- Model of `struct MatchedVariables`: a partial assignment from variable ids to
values (a `HashMap<u32, Option<ID>>`), as an association list. -/
structure MatchedVariables where
  vars : List (Nat × Option ID)
deriving DecidableEq

/-- Lookup in the partial assignment (`HashMap::get` on the inner map). -/
def mvLookup (l : List (Nat × Option ID)) (k : Nat) : Option (Option ID) :=
  match l with
  | [] => none
  | (a, v) :: rest => if a = k then some v else mvLookup rest k

/-- Model of `MatchedVariables::new`: every listed variable id is mapped to
`None`. -/
def MatchedVariables.new (keys : List Nat) : MatchedVariables :=
  ⟨keys.map fun key => (key, none)⟩

/-- Model of `MatchedVariables::insert`: binds an unbound key (returning `true`),
compares against an existing binding (returning whether they agree), and
returns `false` for a key outside the map.  The source mutates in place;
here the updated map is returned alongside the boolean. -/
def MatchedVariables.insert (m : MatchedVariables) (k : Nat) (v : ID) :
    Bool × MatchedVariables :=
  match mvLookup m.vars k with
  | some none => (true, ⟨m.vars.map fun p => if p.1 = k then (p.1, some v) else p⟩)
  | some (some v') => (v == v', m)
  | none => (false, m)

/-- Helper for `MatchedVariables::complete`: all-or-nothing extraction. -/
def completeAux : List (Nat × Option ID) → Option Env
  | [] => some []
  | (k, some v) :: rest => (completeAux rest).map fun e => (k, v) :: e
  | (_, none) :: _ => none

/-- Model of `MatchedVariables::complete`: the full environment if every variable
is bound, `None` otherwise. -/
def MatchedVariables.complete (m : MatchedVariables) : Option Env :=
  completeAux m.vars

/-- The constraint loop inside `CombineIt::next`: check every constraint
against the candidate value, stopping at the first failure (`break`), and
propagating the panic (`none`) of `Constraint::check` on a variable. -/
def checkAll (rx : String → String → Bool) (cs : List Constraint)
    (k : Nat) (id : ID) : Option Bool :=
  match cs with
  | [] => some true
  | c :: rest =>
    match c.check rx k id with
    | none => none
    | some false => some false
    | some true => checkAll rx rest k id

/-- The per-candidate unification loop of `CombineIt::next`: walk the
zipped (pattern, fact value) pairs; on a `Variable` pattern run the
constraints and attempt the insertion.  Outer `none` is a panic inside
`Constraint::check`; `some none` is a rejected candidate; `some (some m)`
is the extended assignment. -/
def processPairs (rx : String → String → Bool) (cs : List Constraint)
    (vars : MatchedVariables) :
    List (ID × ID) → Option (Option MatchedVariables)
  | [] => some (some vars)
  | (key, id) :: rest =>
    match key with
    | ID.Variable k =>
      match checkAll rx cs k id with
      | none => none
      | some cok =>
        let r := vars.insert k id
        if cok && r.1 then processPairs rx cs r.2 rest
        else some none
    | _ => processPairs rx cs vars rest

/-- The last-predicate handling of `CombineIt::next`: once the body is
exhausted, a candidate emits its environment exactly when the assignment
is complete and every expression evaluates to `Bool(true)`. -/
def baseNext (exprs : List Expression) (vars : MatchedVariables) :
    Option (List Env) :=
  match vars.complete with
  | none => some []
  | some env =>
    if exprs.all fun e => e.evaluate env == some (ID.Bool true) then some [env]
    else some []

/-- One level of the recursive join iterator: scan the candidate facts
(already filtered by `match_preds`), extend the assignment per candidate,
and hand the extended assignment to `next` (either the base case or the
next `CombineIt` level).  The emitted environments are concatenated in
scan order; `none` aborts the whole scan (a panic). -/
def combineLevel (rx : String → String → Bool) (vars : MatchedVariables)
    (next : MatchedVariables → Option (List Env)) (cs : List Constraint)
    (pids : List ID) : List Fact → Option (List Env)
  | [] => some []
  | f :: fs =>
    match processPairs rx cs vars (pids.zip f.predicate.ids) with
    | none => none
    | some none => combineLevel rx vars next cs pids fs
    | some (some vars') =>
      match next vars' with
      | none => none
      | some envs =>
        match combineLevel rx vars next cs pids fs with
        | none => none
        | some envs2 => some (envs ++ envs2)

/-- The recursion of `CombineIt`, structurally on a depth counter that is
always instantiated with the body length (each recursive `CombineIt::new`
drops exactly one predicate, so the depth of the Rust recursion is the
body length).  `CombineIt::new` evaluates `predicates[0]` unconditionally,
so an empty body panics (`none`) before `next` is ever called; with one
predicate left the base case applies; otherwise the iterator recurses on
the rest of the body. -/
def combineAux (rx : String → String → Bool) :
    Nat → MatchedVariables → List Predicate → List Constraint →
    List Expression → List Fact → Option (List Env)
  | 0, _, _, _, _, _ => none
  | depth + 1, vars, preds, cs, exprs, facts =>
    match preds with
    | [] => none
    | p0 :: rest =>
      combineLevel rx vars
        (if rest.isEmpty then fun v2 => baseNext exprs v2
         else fun v2 => combineAux rx depth v2 rest cs exprs facts)
        cs p0.ids (facts.filter fun f => match_preds f.predicate p0)

/-- The stream of environments produced by `CombineIt`, as a list. -/
def combine (rx : String → String → Bool) (vars : MatchedVariables)
    (preds : List Predicate) (cs : List Constraint)
    (exprs : List Expression) (facts : List Fact) : Option (List Env) :=
  combineAux rx preds.length vars preds cs exprs facts

/-- The variable ids occurring in a rule body (`variables_set` in
`Rule::apply`, a `HashSet<u32>`), deduplicated. -/
def bodyVariables (body : List Predicate) : List Nat :=
  ((body.map fun p => p.ids.filterMap fun id =>
      match id with
      | ID.Variable i => some i
      | _ => none).flatten).dedup

/-- The head substitution of `Rule::apply`: a `Variable` slot takes its
bound value; an unbound `Variable` and every non-variable slot are left
in place (the source's `continue`). -/
def substPred (head : Predicate) (env : Env) : Predicate :=
  { name := head.name
    ids := head.ids.map fun id =>
      match id with
      | ID.Variable i =>
        match envLookup env i with
        | some val => val
        | none => ID.Variable i
      | other => other }

/-- Model of `Rule::apply`: run the join over the body and substitute each emitted
environment into the head.  `none` is a panic (empty body, or a
constraint checked on a variable). -/
def Rule.apply (rx : String → String → Bool) (r : Rule)
    (facts : List Fact) : Option (List Fact) :=
  (combine rx (MatchedVariables.new (bodyVariables r.body)) r.body
      r.constraints r.expressions facts).map
    fun envs => envs.map fun env => Fact.mk (substPred r.head env)

/-- The world (`struct World`): a fact set (as a duplicate-free list) and
an ordered rule list. -/
structure World where
  facts : List Fact
  rules : List Rule
deriving DecidableEq

/-- Model of `HashSet::insert` on the fact set: append only when absent. -/
def hsInsert (l : List Fact) (f : Fact) : List Fact :=
  if f ∈ l then l else l ++ [f]

/-- Model of `HashSet::extend`: insert every new fact in order. -/
def extendFacts (l : List Fact) (newFacts : List Fact) : List Fact :=
  newFacts.foldl hsInsert l

/-- Model of `World::add_fact`. -/
def World.add_fact (w : World) (fact : Fact) : World :=
  { w with facts := hsInsert w.facts fact }

/-- Model of `World::add_rule`. -/
def World.add_rule (w : World) (rule : Rule) : World :=
  { w with rules := w.rules ++ [rule] }

/-- The rule loop of `World::run_with_limits`: apply every rule to the
current facts, concatenating the produced facts; a panic in any
application aborts the whole run (`none`). -/
def applyAll (rx : String → String → Bool) (rules : List Rule)
    (facts : List Fact) : Option (List Fact) :=
  match rules with
  | [] => some []
  | r :: rest =>
    match r.apply rx facts with
    | none => none
    | some nf => (applyAll rx rest facts).map fun acc => nf ++ acc

/-- Model of `struct RunLimits` (the `max_time` duration is replaced by the
deadline oracle passed to the driver). -/
structure RunLimits where
  max_facts : Nat
  max_iterations : Nat
deriving DecidableEq

/-- The error type of `run_with_limits` (`error::RunLimit`). -/
inductive RunLimit where
  | TooManyIterations
  | TooManyFacts
  | Timeout
deriving DecidableEq

/-- Outcome of the saturation loop: normal return, limit error (with the
mutated world, since the source mutates `self` in place), or panic. -/
inductive RunOutcome where
  | ok (w : World)
  | err (e : RunLimit) (w : World)
  | panic
deriving DecidableEq

/-- The loop of `World::run_with_limits`.  `tmo i` tells whether the
deadline has passed after the `i`-th productive iteration; `fuel` bounds
the number of modelled iterations (`none` = the loop was still running).
The iteration counter is a `u32` in the source, hence the `% 2 ^ 32` on
the increment. -/
def runLoop (rx : String → String → Bool) (tmo : Nat → Bool)
    (limits : RunLimits) : Nat → Nat → World → Option RunOutcome
  | _, 0, _ => none
  | index, fuel + 1, w =>
    match applyAll rx w.rules w.facts with
    | none => some RunOutcome.panic
    | some newFacts =>
      let len := w.facts.length
      let facts2 := extendFacts w.facts newFacts
      let w2 : World := { w with facts := facts2 }
      if facts2.length = len then some (RunOutcome.ok w2)
      else
        let index2 := (index + 1) % 2 ^ 32
        if index2 = limits.max_iterations then
          some (RunOutcome.err RunLimit.TooManyIterations w2)
        else if limits.max_facts ≤ facts2.length then
          some (RunOutcome.err RunLimit.TooManyFacts w2)
        else if tmo index2 then
          some (RunOutcome.err RunLimit.Timeout w2)
        else runLoop rx tmo limits index2 fuel w2

/-- Model of `World::run_with_limits`: the loop started with a zero iteration
counter. -/
def World.run_with_limits (rx : String → String → Bool) (tmo : Nat → Bool)
    (fuel : Nat) (limits : RunLimits) (w : World) : Option RunOutcome :=
  runLoop rx tmo limits 0 fuel w

/-- Model of `World::run`: the default limits (1000 facts, 100 iterations). -/
def World.run (rx : String → String → Bool) (tmo : Nat → Bool)
    (fuel : Nat) (w : World) : Option RunOutcome :=
  World.run_with_limits rx tmo fuel ⟨1000, 100⟩ w

/-- The per-pair test of `World::query` (the closure passed to `all` in
the source): a `Variable` in the query position matches only a `Symbol`
fact value; symbols, integers, strings and dates have equality arms; any
other pair falls into the default arm. -/
def query_pair (fid pid : ID) : Bool :=
  match fid, pid with
  | ID.Symbol _, ID.Variable _ => true
  | ID.Symbol i, ID.Symbol j => i == j
  | ID.Integer i, ID.Integer j => i == j
  | ID.Str i, ID.Str j => i == j
  | ID.Date i, ID.Date j => i == j
  | _, _ => false

/-- Model of `World::query`: filter the stored facts by name and by the zipped
argument pairs.  Note the source checks neither arity nor the pairs
beyond the shorter of the two argument lists. -/
def World.query (w : World) (pred : Predicate) : List Fact :=
  w.facts.filter fun f =>
    f.predicate.name == pred.name
      && (f.predicate.ids.zip pred.ids).all fun pr => query_pair pr.1 pr.2

/-! ## Matching (C1) -/

/-- The pairwise test of `match_preds`, characterised: either side a
variable, or equal values carrying one of the four tags that have an
equality arm. -/
theorem match_preds_pair_iff (f q : ID) :
    match_preds_pair f q = true ↔
      f.isVariable = true ∨ q.isVariable = true ∨
        (f = q ∧ f.isAtomicMatchTag = true) := by
  cases f <;> cases q <;>
    simp [match_preds_pair, ID.isVariable, ID.isAtomicMatchTag]

/-- C1, counterexample: the spec's §4.1 relation accepts identical
`Bytes` (and `Bool`) arguments, but `match_preds` rejects them — its
default arm returns `false` for those tags. -/
theorem c1_counterexample :
    specMatches ⟨0, [ID.Bytes [1]]⟩ ⟨0, [ID.Bytes [1]]⟩ = true ∧
    specMatches ⟨0, [ID.Bool true]⟩ ⟨0, [ID.Bool true]⟩ = true ∧
    match_preds ⟨0, [ID.Bytes [1]]⟩ ⟨0, [ID.Bytes [1]]⟩ = false ∧
    match_preds ⟨0, [ID.Bool true]⟩ ⟨0, [ID.Bool true]⟩ = false := by
  decide

/-- C1, amended: `match_preds` returns true iff the names are equal, the
arities are equal, and every pair of positional args has a `Variable` on
either side or is an equal pair tagged `Symbol`, `Integer`, `Str` or
`Date`; concrete `Bytes` and `Bool` pairs never match. -/
theorem c1_amended (p q : Predicate) :
    match_preds p q = true ↔
      p.name = q.name ∧ p.ids.length = q.ids.length ∧
        ∀ pr ∈ p.ids.zip q.ids,
          pr.1.isVariable = true ∨ pr.2.isVariable = true ∨
            (pr.1 = pr.2 ∧ pr.1.isAtomicMatchTag = true) := by
  simp [match_preds, Bool.and_eq_true, List.all_eq_true, beq_iff_eq,
    match_preds_pair_iff, and_assoc]

/-- Witness for C1's amended theorem at a concrete pair of predicates. -/
theorem c1_amended_witness :
    match_preds ⟨4, [ID.Integer 7, ID.Variable 1]⟩
        ⟨4, [ID.Integer 7, ID.Str "x"]⟩ = true ↔
      (4 : Nat) = 4 ∧ (2 : Nat) = 2 ∧
        ∀ pr ∈ [(ID.Integer 7, ID.Integer 7), (ID.Variable 1, ID.Str "x")],
          pr.1.isVariable = true ∨ pr.2.isVariable = true ∨
            (pr.1 = pr.2 ∧ pr.1.isAtomicMatchTag = true) :=
  c1_amended ⟨4, [ID.Integer 7, ID.Variable 1]⟩ ⟨4, [ID.Integer 7, ID.Str "x"]⟩

/-! ## Query (C2) -/

/-- The pairwise test of `World::query`, characterised: a `Symbol` fact
value under a `Variable` query slot, or equal values carrying one of the
four tags that have an equality arm. -/
theorem query_pair_iff (f q : ID) :
    query_pair f q = true ↔
      (f.isSymbol = true ∧ q.isVariable = true) ∨
        (f = q ∧ f.isAtomicMatchTag = true) := by
  cases f <;> cases q <;>
    simp [query_pair, ID.isSymbol, ID.isVariable, ID.isAtomicMatchTag]

/-- C2, counterexample: `query` has no arity check — a stored fact of
arity 2 is returned for a query predicate of arity 1 — and a `Variable`
slot is not a wildcard for an `Integer` fact value. -/
theorem c2_counterexample :
    (⟨⟨1, [ID.Integer 5, ID.Integer 6]⟩⟩ : Fact) ∈
        World.query ⟨[⟨⟨1, [ID.Integer 5, ID.Integer 6]⟩⟩], []⟩
          ⟨1, [ID.Integer 5]⟩ ∧
    (⟨⟨1, [ID.Integer 5, ID.Integer 6]⟩⟩ : Fact).predicate.ids.length ≠
        (⟨1, [ID.Integer 5]⟩ : Predicate).ids.length ∧
    World.query ⟨[⟨⟨1, [ID.Integer 5]⟩⟩], []⟩ ⟨1, [ID.Variable 0]⟩ = [] := by
  decide

/-- C2, amended: `query p` returns exactly the stored facts whose name
equals `p`'s and whose argument pairs — zipped up to the shorter of the
two argument lists, with no arity check — each consist of a `Symbol` fact
value under a `Variable` query slot, or equal values tagged `Symbol`,
`Integer`, `Str` or `Date`. -/
theorem c2_amended (w : World) (p : Predicate) (f : Fact) :
    f ∈ w.query p ↔
      f ∈ w.facts ∧ f.predicate.name = p.name ∧
        ∀ pr ∈ f.predicate.ids.zip p.ids,
          (pr.1.isSymbol = true ∧ pr.2.isVariable = true) ∨
            (pr.1 = pr.2 ∧ pr.1.isAtomicMatchTag = true) := by
  simp [World.query, List.mem_filter, Bool.and_eq_true, List.all_eq_true,
    beq_iff_eq, query_pair_iff, and_assoc]

/-- Witness for C2's amended theorem at a concrete world and query. -/
theorem c2_amended_witness :
    (⟨⟨3, [ID.Symbol 9]⟩⟩ : Fact) ∈
        World.query ⟨[⟨⟨3, [ID.Symbol 9]⟩⟩], []⟩ ⟨3, [ID.Variable 0]⟩ ↔
      (⟨⟨3, [ID.Symbol 9]⟩⟩ : Fact) ∈
          (⟨[⟨⟨3, [ID.Symbol 9]⟩⟩], []⟩ : World).facts ∧
        (⟨⟨3, [ID.Symbol 9]⟩⟩ : Fact).predicate.name =
          (⟨3, [ID.Variable 0]⟩ : Predicate).name ∧
        ∀ pr ∈ (⟨⟨3, [ID.Symbol 9]⟩⟩ : Fact).predicate.ids.zip
            (⟨3, [ID.Variable 0]⟩ : Predicate).ids,
          (pr.1.isSymbol = true ∧ pr.2.isVariable = true) ∨
            (pr.1 = pr.2 ∧ pr.1.isAtomicMatchTag = true) :=
  c2_amended ⟨[⟨⟨3, [ID.Symbol 9]⟩⟩], []⟩ ⟨3, [ID.Variable 0]⟩
    ⟨⟨3, [ID.Symbol 9]⟩⟩

/-! ## Empty rule bodies (C3) -/

/-- C3: applying a rule with an empty body aborts — `CombineIt::new`
evaluates `predicates[0]` unconditionally, so it panics before the
empty-body base case of `next` (which is dead code) can run. -/
theorem c3_empty_body_panics (rx : String → String → Bool) (r : Rule)
    (facts : List Fact) (h : r.body = []) :
    Rule.apply rx r facts = none := by
  simp [Rule.apply, combine, combineAux, h]

/-- Witness for C3 at a concrete empty-bodied rule. -/
theorem c3_witness :
    Rule.apply (fun _ _ => false) ⟨⟨0, []⟩, [], [], []⟩ [] = none :=
  c3_empty_body_panics (fun _ _ => false) ⟨⟨0, []⟩, [], [], []⟩ [] rfl

/-! ## Integer addition (C9) -/

/-- C9: `Add` on two integers always yields their two's-complement 64-bit
wrapped sum — the result stays in `[-2 ^ 63, 2 ^ 63)`, is congruent to the
exact sum modulo `2 ^ 64`, and in particular `i64::MAX + 1` wraps to
`i64::MIN` instead of aborting. -/
theorem c9_add_wraps (a b : Int) :
    Binary.evaluate Binary.Add (ID.Integer a) (ID.Integer b)
        = some (ID.Integer (wrap64 (a + b))) ∧
      -(2 ^ 63) ≤ wrap64 (a + b) ∧ wrap64 (a + b) < 2 ^ 63 ∧
      wrap64 (a + b) % 2 ^ 64 = (a + b) % 2 ^ 64 ∧
      Binary.evaluate Binary.Add (ID.Integer (2 ^ 63 - 1)) (ID.Integer 1)
        = some (ID.Integer (-(2 ^ 63))) := by
  refine ⟨rfl, ?_, ?_, ?_, by decide⟩ <;>
    · simp only [wrap64]
      omega

/-! ## Expression evaluation (C6) -/

/-- C6: the stack machine pops `right` then `left` and computes
`left OP right` — pushing `a` then `b` makes `LessThan` yield
`Bool (a < b)`, `GreaterThan` yield `Bool (a > b)`, `Add` yield the
wrapped `a + b`, and `And` the conjunction; underflow, a leftover stack
residue, and an unbound variable all fail; and evaluation succeeds with
`v` exactly when the opcode run ends with `[v]` as the whole stack. -/
theorem c6_expression_evaluate (a b : Int) (p q : Bool) (i : Nat)
    (env : Env) (e : Expression) (v : ID) (h : envLookup env i = none) :
    Expression.evaluate
        ⟨[Op.Value (ID.Integer a), Op.Value (ID.Integer b),
          Op.Binary Binary.LessThan]⟩ env = some (ID.Bool (decide (a < b))) ∧
    Expression.evaluate
        ⟨[Op.Value (ID.Integer a), Op.Value (ID.Integer b),
          Op.Binary Binary.GreaterThan]⟩ env = some (ID.Bool (decide (a > b))) ∧
    Expression.evaluate
        ⟨[Op.Value (ID.Integer a), Op.Value (ID.Integer b),
          Op.Binary Binary.Add]⟩ env = some (ID.Integer (wrap64 (a + b))) ∧
    Expression.evaluate
        ⟨[Op.Value (ID.Bool p), Op.Value (ID.Bool q),
          Op.Binary Binary.And]⟩ env = some (ID.Bool (p && q)) ∧
    Expression.evaluate ⟨[Op.Binary Binary.Add]⟩ env = none ∧
    Expression.evaluate
        ⟨[Op.Value (ID.Integer a), Op.Value (ID.Integer b)]⟩ env = none ∧
    Expression.evaluate ⟨[Op.Value (ID.Variable i)]⟩ env = none ∧
    (Expression.evaluate e env = some v ↔ evalOps env e.ops [] = some [v]) := by
  refine ⟨?_, ?_, ?_, ?_, ?_, ?_, ?_, ?_⟩
  · simp [Expression.evaluate, evalOps, Binary.evaluate]
  · simp [Expression.evaluate, evalOps, Binary.evaluate]
  · simp [Expression.evaluate, evalOps, Binary.evaluate]
  · simp [Expression.evaluate, evalOps, Binary.evaluate]
  · simp [Expression.evaluate, evalOps]
  · simp [Expression.evaluate, evalOps]
  · simp [Expression.evaluate, evalOps, h]
  · rcases he : evalOps env e.ops [] with _ | (_ | ⟨x, _ | ⟨y, t⟩⟩) <;>
      simp [Expression.evaluate, he]

/-- Witness for C6 at concrete operands and an empty environment. -/
theorem c6_witness :
    Expression.evaluate
        ⟨[Op.Value (ID.Integer 1), Op.Value (ID.Integer 2),
          Op.Binary Binary.LessThan]⟩ [] = some (ID.Bool (decide ((1 : Int) < 2))) ∧
    Expression.evaluate
        ⟨[Op.Value (ID.Integer 1), Op.Value (ID.Integer 2),
          Op.Binary Binary.GreaterThan]⟩ [] = some (ID.Bool (decide ((1 : Int) > 2))) ∧
    Expression.evaluate
        ⟨[Op.Value (ID.Integer 1), Op.Value (ID.Integer 2),
          Op.Binary Binary.Add]⟩ [] = some (ID.Integer (wrap64 (1 + 2))) ∧
    Expression.evaluate
        ⟨[Op.Value (ID.Bool true), Op.Value (ID.Bool false),
          Op.Binary Binary.And]⟩ [] = some (ID.Bool (true && false)) ∧
    Expression.evaluate ⟨[Op.Binary Binary.Add]⟩ [] = none ∧
    Expression.evaluate
        ⟨[Op.Value (ID.Integer 1), Op.Value (ID.Integer 2)]⟩ [] = none ∧
    Expression.evaluate ⟨[Op.Value (ID.Variable 0)]⟩ [] = none ∧
    (Expression.evaluate ⟨[Op.Value (ID.Integer 1)]⟩ [] = some (ID.Integer 1) ↔
      evalOps [] (⟨[Op.Value (ID.Integer 1)]⟩ : Expression).ops [] = some [ID.Integer 1]) :=
  c6_expression_evaluate 1 2 true false 0 [] ⟨[Op.Value (ID.Integer 1)]⟩
    (ID.Integer 1) rfl

/-! ## Residual head variables (C5) -/

/-- C5: for every environment emitted by the join, the substituted head
fact is among the facts emitted by `Rule::apply`; and a head slot holding
`Variable i` with `i` unbound in the environment is left in place, so the
emitted fact still contains that `Variable`. -/
theorem c5_residual_variable (rx : String → String → Bool) (r : Rule)
    (facts : List Fact) (envs : List Env) (env : Env) (idx i : Nat)
    (hc : combine rx (MatchedVariables.new (bodyVariables r.body)) r.body
        r.constraints r.expressions facts = some envs)
    (he : env ∈ envs)
    (hh : r.head.ids[idx]? = some (ID.Variable i))
    (hl : envLookup env i = none) :
    Fact.mk (substPred r.head env) ∈ (Rule.apply rx r facts).getD [] ∧
    (substPred r.head env).ids[idx]? = some (ID.Variable i) := by
  constructor
  · simp [Rule.apply, hc]
    exact ⟨env, he, rfl⟩
  · simp [substPred, hh, hl]

/-- Witness for C5: a rule whose head variable `7` never occurs in the
body emits a fact with the residual `Variable 7`. -/
theorem c5_witness :
    Fact.mk (substPred ⟨2, [ID.Variable 7]⟩ [(0, ID.Symbol 3)]) ∈
        (Rule.apply (fun _ _ => false)
          ⟨⟨2, [ID.Variable 7]⟩, [⟨1, [ID.Variable 0]⟩], [], []⟩
          [⟨⟨1, [ID.Symbol 3]⟩⟩]).getD [] ∧
    (substPred ⟨2, [ID.Variable 7]⟩ [(0, ID.Symbol 3)]).ids[0]? =
      some (ID.Variable 7) :=
  c5_residual_variable (fun _ _ => false)
    ⟨⟨2, [ID.Variable 7]⟩, [⟨1, [ID.Variable 0]⟩], [], []⟩
    [⟨⟨1, [ID.Symbol 3]⟩⟩] [[(0, ID.Symbol 3)]] [(0, ID.Symbol 3)] 0 7
    rfl (by decide) rfl rfl

/-! ## Monotonicity (C8) -/

/-- The model of `HashSet::insert` never removes facts. -/
theorem mem_hsInsert_of_mem {l : List Fact} {f g : Fact} (h : f ∈ l) :
    f ∈ hsInsert l g := by
  unfold hsInsert
  split
  · exact h
  · exact List.mem_append_left _ h

/-- The model of `HashSet::extend` never removes facts. -/
theorem mem_extendFacts_of_mem {newFacts : List Fact} :
    ∀ {l : List Fact} {f : Fact}, f ∈ l → f ∈ extendFacts l newFacts := by
  induction newFacts with
  | nil => intro l f h; exact h
  | cons n ns ih => intro l f h; exact ih (mem_hsInsert_of_mem h)

/-- The saturation loop only grows the fact set, whatever outcome it
stops with. -/
theorem runLoop_mono (rx : String → String → Bool) (tmo : Nat → Bool)
    (limits : RunLimits) :
    ∀ fuel index w out, runLoop rx tmo limits index fuel w = some out →
      ∀ w', (out = RunOutcome.ok w' ∨ ∃ e, out = RunOutcome.err e w') →
        ∀ f ∈ w.facts, f ∈ w'.facts := by
  intro fuel
  induction fuel with
  | zero => intro index w out h; simp [runLoop] at h
  | succ n ih =>
    intro index w out h w' hd f hf
    rw [runLoop] at h
    rcases happ : applyAll rx w.rules w.facts with _ | nf <;> rw [happ] at h
    · simp at h
      rcases hd with hd | ⟨e, hd⟩ <;> simp [← h] at hd
    · simp only [] at h
      split at h
      · simp at h
        subst h
        rcases hd with hd | ⟨e, hd⟩
        · cases hd
          exact mem_extendFacts_of_mem hf
        · cases hd
      · split at h
        · simp at h
          subst h
          rcases hd with hd | ⟨e, hd⟩
          · cases hd
          · cases hd
            exact mem_extendFacts_of_mem hf
        · split at h
          · simp at h
            subst h
            rcases hd with hd | ⟨e, hd⟩
            · cases hd
            · cases hd
              exact mem_extendFacts_of_mem hf
          · split at h
            · simp at h
              subst h
              rcases hd with hd | ⟨e, hd⟩
              · cases hd
              · cases hd
                exact mem_extendFacts_of_mem hf
            · exact ih _ _ _ h w' hd f (mem_extendFacts_of_mem hf)

/-- C8: the fact set never shrinks — `add_fact` and `add_rule` preserve
every stored fact, and so does the saturation loop whether it returns
`Ok` or a limit error. -/
theorem c8_monotonicity (rx : String → String → Bool) (tmo : Nat → Bool)
    (limits : RunLimits) (index fuel : Nat) (w w' : World) (g : Fact)
    (r : Rule) (e : RunLimit) (f : Fact) (hf : f ∈ w.facts) :
    f ∈ (w.add_fact g).facts ∧ f ∈ (w.add_rule r).facts ∧
    (runLoop rx tmo limits index fuel w = some (RunOutcome.ok w') →
      f ∈ w'.facts) ∧
    (runLoop rx tmo limits index fuel w = some (RunOutcome.err e w') →
      f ∈ w'.facts) := by
  refine ⟨mem_hsInsert_of_mem hf, hf, ?_, ?_⟩
  · intro h
    exact runLoop_mono rx tmo limits fuel index w _ h w' (Or.inl rfl) f hf
  · intro h
    exact runLoop_mono rx tmo limits fuel index w _ h w' (Or.inr ⟨e, rfl⟩) f hf

/-- Witness for C8 at a concrete world holding one fact. -/
theorem c8_witness :
    (⟨⟨1, []⟩⟩ : Fact) ∈
        ((⟨[⟨⟨1, []⟩⟩], []⟩ : World).add_fact ⟨⟨2, []⟩⟩).facts ∧
    (⟨⟨1, []⟩⟩ : Fact) ∈
        ((⟨[⟨⟨1, []⟩⟩], []⟩ : World).add_rule ⟨⟨0, []⟩, [], [], []⟩).facts ∧
    (runLoop (fun _ _ => false) (fun _ => false) ⟨5, 10⟩ 0 3
        ⟨[⟨⟨1, []⟩⟩], []⟩ = some (RunOutcome.ok ⟨[⟨⟨1, []⟩⟩], []⟩) →
      (⟨⟨1, []⟩⟩ : Fact) ∈ (⟨[⟨⟨1, []⟩⟩], []⟩ : World).facts) ∧
    (runLoop (fun _ _ => false) (fun _ => false) ⟨5, 10⟩ 0 3
        ⟨[⟨⟨1, []⟩⟩], []⟩ =
          some (RunOutcome.err RunLimit.Timeout ⟨[⟨⟨1, []⟩⟩], []⟩) →
      (⟨⟨1, []⟩⟩ : Fact) ∈ (⟨[⟨⟨1, []⟩⟩], []⟩ : World).facts) :=
  c8_monotonicity (fun _ _ => false) (fun _ => false) ⟨5, 10⟩ 0 3
    ⟨[⟨⟨1, []⟩⟩], []⟩ ⟨[⟨⟨1, []⟩⟩], []⟩ ⟨⟨2, []⟩⟩ ⟨⟨0, []⟩, [], [], []⟩
    RunLimit.Timeout ⟨⟨1, []⟩⟩ (by decide)

/-! ## Fact limits (C4) and the iteration counter (C10) -/

/-- The model of `HashSet::insert` never decreases the size of the fact set. -/
theorem length_le_hsInsert (l : List Fact) (f : Fact) :
    l.length ≤ (hsInsert l f).length := by
  unfold hsInsert
  split
  · exact Nat.le_refl _
  · simp

/-- The model of `HashSet::extend` never decreases the size of the fact set. -/
theorem length_le_extendFacts (newFacts : List Fact) :
    ∀ l : List Fact, l.length ≤ (extendFacts l newFacts).length := by
  induction newFacts with
  | nil => intro l; exact Nat.le_refl _
  | cons n ns ih =>
    intro l
    exact Nat.le_trans (length_le_hsInsert l n) (ih (hsInsert l n))

/-- Loop invariant for the fact limit: an `Ok` stop leaves the fact count
below `max_facts` unless the loop never grew the facts, and a
`TooManyFacts` stop happens at a count at or above `max_facts`. -/
theorem c4_aux (rx : String → String → Bool) (tmo : Nat → Bool)
    (limits : RunLimits) :
    ∀ fuel index w out, runLoop rx tmo limits index fuel w = some out →
      (∀ w1, out = RunOutcome.ok w1 →
        w1.facts.length < limits.max_facts ∨
          w1.facts.length = w.facts.length) ∧
      (∀ w2, out = RunOutcome.err RunLimit.TooManyFacts w2 →
        limits.max_facts ≤ w2.facts.length) := by
  intro fuel
  induction fuel with
  | zero => intro index w out h; simp [runLoop] at h
  | succ n ih =>
    intro index w out h
    rw [runLoop] at h
    rcases happ : applyAll rx w.rules w.facts with _ | nf <;> rw [happ] at h
    · simp at h
      subst h
      exact ⟨(fun w1 hw => nomatch hw), (fun w2 hw => nomatch hw)⟩
    · simp only [] at h
      split at h
      case isTrue hlen =>
        simp at h
        subst h
        refine ⟨(fun w1 hw => ?_), (fun w2 hw => nomatch hw)⟩
        cases hw
        exact Or.inr hlen
      case isFalse hlen =>
        split at h
        · simp at h
          subst h
          exact ⟨(fun w1 hw => nomatch hw), (fun w2 hw => nomatch hw)⟩
        · split at h
          case isTrue hfc =>
            simp at h
            subst h
            refine ⟨(fun w1 hw => nomatch hw), (fun w2 hw => ?_)⟩
            cases hw
            exact hfc
          case isFalse hfc =>
            split at h
            · simp at h
              subst h
              exact ⟨(fun w1 hw => nomatch hw), (fun w2 hw => nomatch hw)⟩
            · have hrec := ih _ _ _ h
              refine ⟨fun w1 hw => ?_, hrec.2⟩
              rcases hrec.1 w1 hw with hlt2 | heq
              · exact Or.inl hlt2
              · have heq2 : w1.facts.length = (extendFacts w.facts nf).length := heq
                exact Or.inl (by omega)

/-- C4, amended: if `run_with_limits` returns `Ok` then either the final
fact count is strictly below `max_facts`, or no iteration ever added a
fact and the count equals the initial one (so pre-existing facts above
the limit survive an immediate fixpoint); on `TooManyFacts` the fact
count at detection is at least `max_facts`. -/
theorem c4_amended (rx : String → String → Bool) (tmo : Nat → Bool)
    (fuel : Nat) (limits : RunLimits) (w : World) (out : RunOutcome)
    (w1 w2 : World)
    (h : World.run_with_limits rx tmo fuel limits w = some out) :
    (out = RunOutcome.ok w1 →
      w1.facts.length < limits.max_facts ∨
        w1.facts.length = w.facts.length) ∧
    (out = RunOutcome.err RunLimit.TooManyFacts w2 →
      limits.max_facts ≤ w2.facts.length) := by
  have haux := c4_aux rx tmo limits fuel 0 w out h
  exact ⟨haux.1 w1, haux.2 w2⟩

/-- C4, counterexample: a world with two facts and no rules reaches its
fixpoint immediately, so `run_with_limits` with `max_facts = 1` returns
`Ok` even though the final fact count exceeds the limit. -/
theorem c4_counterexample :
    World.run_with_limits (fun _ _ => false) (fun _ => false) 5 ⟨1, 100⟩
        ⟨[⟨⟨1, []⟩⟩, ⟨⟨2, []⟩⟩], []⟩ =
      some (RunOutcome.ok ⟨[⟨⟨1, []⟩⟩, ⟨⟨2, []⟩⟩], []⟩) ∧
    ¬ ((⟨[⟨⟨1, []⟩⟩, ⟨⟨2, []⟩⟩], []⟩ : World).facts.length ≤ 1) := by
  decide

/-- Witness for C4's amended theorem at a concrete `TooManyFacts` run. -/
theorem c4_witness :
    (RunOutcome.err RunLimit.TooManyFacts
          ⟨[⟨⟨1, []⟩⟩, ⟨⟨2, []⟩⟩], [⟨⟨2, []⟩, [⟨1, []⟩], [], []⟩]⟩ =
        RunOutcome.ok ⟨[⟨⟨1, []⟩⟩], []⟩ →
      (⟨[⟨⟨1, []⟩⟩], []⟩ : World).facts.length < 1 ∨
        (⟨[⟨⟨1, []⟩⟩], []⟩ : World).facts.length =
          (⟨[⟨⟨1, []⟩⟩], [⟨⟨2, []⟩, [⟨1, []⟩], [], []⟩]⟩ : World).facts.length) ∧
    (RunOutcome.err RunLimit.TooManyFacts
          ⟨[⟨⟨1, []⟩⟩, ⟨⟨2, []⟩⟩], [⟨⟨2, []⟩, [⟨1, []⟩], [], []⟩]⟩ =
        RunOutcome.err RunLimit.TooManyFacts
          ⟨[⟨⟨1, []⟩⟩, ⟨⟨2, []⟩⟩], [⟨⟨2, []⟩, [⟨1, []⟩], [], []⟩]⟩ →
      1 ≤ (⟨[⟨⟨1, []⟩⟩, ⟨⟨2, []⟩⟩],
            [⟨⟨2, []⟩, [⟨1, []⟩], [], []⟩]⟩ : World).facts.length) :=
  c4_amended (fun _ _ => false) (fun _ => false) 5 ⟨1, 100⟩
    ⟨[⟨⟨1, []⟩⟩], [⟨⟨2, []⟩, [⟨1, []⟩], [], []⟩]⟩
    (RunOutcome.err RunLimit.TooManyFacts
      ⟨[⟨⟨1, []⟩⟩, ⟨⟨2, []⟩⟩], [⟨⟨2, []⟩, [⟨1, []⟩], [], []⟩]⟩)
    ⟨[⟨⟨1, []⟩⟩], []⟩
    ⟨[⟨⟨1, []⟩⟩, ⟨⟨2, []⟩⟩], [⟨⟨2, []⟩, [⟨1, []⟩], [], []⟩]⟩
    (by decide)

/-- Loop invariant for the iteration counter: with `max_iterations = 0`,
the `u32` counter would have to wrap all the way to `0` to trip the
iteration check, but every productive iteration grows the fact set, so
the fact limit (a `u32`, hence `< 2 ^ 32`) trips first. -/
theorem c10_aux (rx : String → String → Bool) (tmo : Nat → Bool)
    (limits : RunLimits) (h0 : limits.max_iterations = 0)
    (hmf : limits.max_facts < 2 ^ 32) :
    ∀ fuel index w out, index ≤ w.facts.length → index < 2 ^ 32 →
      (index ≠ 0 → w.facts.length < limits.max_facts) →
      runLoop rx tmo limits index fuel w = some out →
      ∀ w', out ≠ RunOutcome.err RunLimit.TooManyIterations w' := by
  intro fuel
  induction fuel with
  | zero => intro index w out _ _ _ h; simp [runLoop] at h
  | succ n ih =>
    intro index w out hle hlt hsmall h w'
    rw [runLoop] at h
    rcases happ : applyAll rx w.rules w.facts with _ | nf <;> rw [happ] at h
    · simp at h
      subst h
      exact fun hcon => by cases hcon
    · simp only [] at h
      split at h
      case isTrue hlen =>
        simp at h
        subst h
        exact fun hcon => by cases hcon
      case isFalse hlen =>
        have hgrow := length_le_extendFacts nf w.facts
        split at h
        case isTrue hidx =>
          exfalso
          rw [h0] at hidx
          have hinz : index ≠ 0 := by omega
          have := hsmall hinz
          omega
        case isFalse hidx =>
          rw [h0] at hidx
          split at h
          case isTrue hfc =>
            simp at h
            subst h
            exact fun hcon => by cases hcon
          case isFalse hfc =>
            split at h
            · simp at h
              subst h
              exact fun hcon => by cases hcon
            · refine ih _ _ _ ?_ ?_ ?_ h w'
              · show (index + 1) % 2 ^ 32 ≤ (extendFacts w.facts nf).length
                omega
              · omega
              · intro _
                show (extendFacts w.facts nf).length < limits.max_facts
                omega

/-- C10: `run_with_limits` with `max_iterations = 0` never returns
`TooManyIterations` — the counter is compared only after being
incremented, and the `u32` fact limit necessarily trips before the
counter could wrap back to zero. -/
theorem c10_no_spurious_iterations (rx : String → String → Bool)
    (tmo : Nat → Bool) (fuel : Nat) (limits : RunLimits) (w : World)
    (out : RunOutcome) (w' : World) (h0 : limits.max_iterations = 0)
    (hmf : limits.max_facts < 2 ^ 32)
    (h : World.run_with_limits rx tmo fuel limits w = some out) :
    out ≠ RunOutcome.err RunLimit.TooManyIterations w' :=
  c10_aux rx tmo limits h0 hmf fuel 0 w out (Nat.zero_le _) (by norm_num)
    (fun hc => absurd rfl hc) h w'

/-- Witness for C10 at a concrete run with `max_iterations = 0`. -/
theorem c10_witness :
    RunOutcome.ok ⟨[], []⟩ ≠
      RunOutcome.err RunLimit.TooManyIterations ⟨[], []⟩ :=
  c10_no_spurious_iterations (fun _ _ => false) (fun _ => false) 1 ⟨5, 0⟩
    ⟨[], []⟩ (RunOutcome.ok ⟨[], []⟩) ⟨[], []⟩ rfl (by norm_num) rfl

/-! ## Join soundness (C7) -/

/-- An environment respects the constraints: every bound value passes
every constraint (`check` answers `some true`, trivially so for a
constraint targeting another variable). -/
def envRespects (rx : String → String → Bool) (cs : List Constraint)
    (env : Env) : Prop :=
  ∀ k v, envLookup env k = some v → ∀ c ∈ cs, c.check rx k v = some true

/-- Every expression of the list evaluates to `Bool(true)` in the
environment. -/
def exprsHold (exprs : List Expression) (env : Env) : Prop :=
  ∀ e ∈ exprs, e.evaluate env = some (ID.Bool true)

/-- A partial assignment respects the constraints on all its bound
variables. -/
def mvRespects (rx : String → String → Bool) (cs : List Constraint)
    (m : MatchedVariables) : Prop :=
  ∀ k v, mvLookup m.vars k = some (some v) →
    ∀ c ∈ cs, c.check rx k v = some true

/-- If the constraint loop answers `some true`, every single constraint
answers `some true` on that candidate. -/
theorem checkAll_sound (rx : String → String → Bool) :
    ∀ (cs : List Constraint) (k : Nat) (id : ID),
      checkAll rx cs k id = some true →
      ∀ c ∈ cs, c.check rx k id = some true := by
  intro cs
  induction cs with
  | nil => intro k id _ c hc; cases hc
  | cons c0 rest ih =>
    intro k id h c hc
    rw [checkAll] at h
    split at h
    · simp at h
    · simp at h
    · next hck =>
      rcases List.mem_cons.mp hc with rfl | hc2
      · exact hck
      · exact ih k id h c hc2

/-- A bound value found after the in-place update performed by
`MatchedVariables::insert` is either the inserted one or was already
bound before. -/
theorem mvLookup_mapSet_some (l : List (Nat × Option ID)) (k : Nat)
    (v : ID) :
    ∀ (k' : Nat) (w : ID),
      mvLookup (l.map fun p => if p.1 = k then (p.1, some v) else p) k'
          = some (some w) →
      (k' = k ∧ w = v) ∨ mvLookup l k' = some (some w) := by
  induction l with
  | nil => intro k' w h; simp [mvLookup] at h
  | cons hd tl ih =>
    intro k' w h
    obtain ⟨a, ob⟩ := hd
    simp only [List.map_cons] at h
    by_cases hak : a = k
    · rw [if_pos hak] at h
      rw [mvLookup] at h
      by_cases ha' : a = k'
      · rw [if_pos ha'] at h
        have hwv : w = v := by
          have := Option.some.inj (Option.some.inj h)
          exact this.symm
        exact Or.inl ⟨by rw [← ha', hak], hwv⟩
      · rw [if_neg ha'] at h
        rcases ih k' w h with hl | hr
        · exact Or.inl hl
        · rw [mvLookup, if_neg ha']
          exact Or.inr hr
    · rw [if_neg hak] at h
      rw [mvLookup] at h
      by_cases ha' : a = k'
      · rw [if_pos ha'] at h
        rw [mvLookup, if_pos ha']
        exact Or.inr h
      · rw [if_neg ha'] at h
        rcases ih k' w h with hl | hr
        · exact Or.inl hl
        · rw [mvLookup, if_neg ha']
          exact Or.inr hr

/-- The model of `MatchedVariables::insert` preserves constraint-respect when the
inserted value itself passes every constraint. -/
theorem insert_respects (rx : String → String → Bool) (cs : List Constraint)
    (m : MatchedVariables) (k : Nat) (v : ID)
    (hm : mvRespects rx cs m) (hc : ∀ c ∈ cs, c.check rx k v = some true) :
    mvRespects rx cs (m.insert k v).2 := by
  have hsnd : (m.insert k v).2 = m ∨
      ((m.insert k v).2 =
          ⟨m.vars.map fun p => if p.1 = k then (p.1, some v) else p⟩ ∧
        mvLookup m.vars k = some none) := by
    unfold MatchedVariables.insert
    rcases hmk : mvLookup m.vars k with _ | ob
    · exact Or.inl rfl
    · cases ob with
      | none => exact Or.inr ⟨rfl, rfl⟩
      | some v' => exact Or.inl rfl
  intro k' w hw c hcm
  rcases hsnd with he | ⟨he, _⟩
  · rw [he] at hw
    exact hm k' w hw c hcm
  · rw [he] at hw
    rcases mvLookup_mapSet_some m.vars k v k' w hw with ⟨rfl, rfl⟩ | hw2
    · exact hc c hcm
    · exact hm k' w hw2 c hcm

/-- The unification loop of a candidate preserves constraint-respect:
each binding it adds has just passed every constraint. -/
theorem processPairs_respects (rx : String → String → Bool)
    (cs : List Constraint) :
    ∀ (pairs : List (ID × ID)) (m m' : MatchedVariables),
      mvRespects rx cs m → processPairs rx cs m pairs = some (some m') →
      mvRespects rx cs m' := by
  intro pairs
  induction pairs with
  | nil =>
    intro m m' hm h
    simp [processPairs] at h
    exact h ▸ hm
  | cons pr rest ih =>
    intro m m' hm h
    obtain ⟨key, id⟩ := pr
    cases key with
    | Variable k =>
      rw [processPairs] at h
      split at h
      · simp at h
      · next cok hca =>
        simp only [] at h
        split at h
        · next hcond =>
          have hcok : cok = true := by
            cases cok with
            | false => simp at hcond
            | true => rfl
          subst hcok
          exact ih _ _
            (insert_respects rx cs m k id hm (checkAll_sound rx cs k id hca)) h
        · simp at h
    | Symbol s => exact ih _ _ hm h
    | Integer i => exact ih _ _ hm h
    | Str s => exact ih _ _ hm h
    | Date d => exact ih _ _ hm h
    | Bytes b => exact ih _ _ hm h
    | Bool b => exact ih _ _ hm h

/-- The environment extracted by `complete` looks up exactly the bound
values of the assignment. -/
theorem completeAux_lookup :
    ∀ (l : List (Nat × Option ID)) (env : Env), completeAux l = some env →
      ∀ k, envLookup env k = (mvLookup l k).bind (fun ob => ob) := by
  intro l
  induction l with
  | nil =>
    intro env h k
    simp [completeAux] at h
    subst h
    simp [envLookup, mvLookup]
  | cons hd tl ih =>
    intro env h k
    obtain ⟨a, ob⟩ := hd
    cases ob with
    | none => simp [completeAux] at h
    | some v =>
      rw [completeAux] at h
      rcases hta : completeAux tl with _ | e' <;> rw [hta] at h
      · simp at h
      · simp at h
        subst h
        by_cases hak : a = k
        · simp [envLookup, mvLookup, hak]
        · simp [envLookup, mvLookup, hak, ih e' hta k]

/-- A constraint-respecting assignment completes to a
constraint-respecting environment. -/
theorem complete_respects (rx : String → String → Bool)
    (cs : List Constraint) (m : MatchedVariables) (env : Env)
    (hm : mvRespects rx cs m) (hc : m.complete = some env) :
    envRespects rx cs env := by
  intro k v hkv c hcm
  have hl := completeAux_lookup m.vars env hc k
  rw [hkv] at hl
  rcases hmk : mvLookup m.vars k with _ | ob <;> rw [hmk] at hl
  · simp at hl
  · cases ob with
    | none => simp at hl
    | some v' =>
      simp at hl
      subst hl
      exact hm k v hmk c hcm

/-- The base case of the join only emits environments that respect the
constraints and make every expression true. -/
theorem baseNext_sound (rx : String → String → Bool) (cs : List Constraint)
    (exprs : List Expression) (m : MatchedVariables) (envs : List Env)
    (hm : mvRespects rx cs m) (h : baseNext exprs m = some envs) :
    ∀ env ∈ envs, envRespects rx cs env ∧ exprsHold exprs env := by
  intro env henv
  unfold baseNext at h
  split at h
  · simp at h
    subst h
    cases henv
  · next env0 hc =>
    split at h
    · next hall =>
      simp at h
      subst h
      rcases List.mem_singleton.mp henv with rfl
      refine ⟨complete_respects rx cs m env hm hc, ?_⟩
      intro e he
      exact eq_of_beq (List.all_eq_true.mp hall e he)
    · next =>
      simp at h
      subst h
      cases henv

/-- One scan level of the join: whatever the continuation guarantees for
the extended assignments, the emitted environments inherit. -/
theorem combineLevel_sound (rx : String → String → Bool)
    (cs : List Constraint) (pids : List ID) (vars : MatchedVariables)
    (next : MatchedVariables → Option (List Env)) (Q : Env → Prop)
    (hnext : ∀ m2 envs2, mvRespects rx cs m2 → next m2 = some envs2 →
      ∀ env ∈ envs2, Q env)
    (hm : mvRespects rx cs vars) :
    ∀ (l : List Fact) (envs : List Env),
      combineLevel rx vars next cs pids l = some envs →
      ∀ env ∈ envs, Q env := by
  intro l
  induction l with
  | nil =>
    intro envs h env henv
    simp [combineLevel] at h
    subst h
    cases henv
  | cons f fs ih =>
    intro envs h env henv
    rw [combineLevel] at h
    split at h
    · simp at h
    · next hp => exact ih envs h env henv
    · next vars' hp =>
      split at h
      · simp at h
      · next envs1 hn =>
        split at h
        · simp at h
        · next envs2 hrec =>
          simp at h
          subst h
          rcases List.mem_append.mp henv with h1 | h2
          · exact hnext vars' envs1
              (processPairs_respects rx cs _ vars vars' hm hp) hn env h1
          · exact ih envs2 hrec env h2

/-- Soundness of the whole join recursion: every emitted environment
respects every constraint and satisfies every expression. -/
theorem combineAux_sound (rx : String → String → Bool)
    (cs : List Constraint) (exprs : List Expression) (facts : List Fact) :
    ∀ (depth : Nat) (preds : List Predicate) (vars : MatchedVariables)
      (envs : List Env), mvRespects rx cs vars →
      combineAux rx depth vars preds cs exprs facts = some envs →
      ∀ env ∈ envs, envRespects rx cs env ∧ exprsHold exprs env := by
  intro depth
  induction depth with
  | zero => intro preds vars envs _ h; simp [combineAux] at h
  | succ n ih =>
    intro preds vars envs hm h env henv
    cases preds with
    | nil => simp [combineAux] at h
    | cons p0 rest =>
      rw [combineAux] at h
      refine combineLevel_sound rx cs p0.ids vars _
        (fun env => envRespects rx cs env ∧ exprsHold exprs env) ?_ hm _ envs
        h env henv
      intro m2 envs2 hm2 hn2
      cases rest with
      | nil =>
        simp at hn2
        exact baseNext_sound rx cs exprs m2 envs2 hm2 hn2
      | cons r1 rs =>
        simp at hn2
        exact ih (r1 :: rs) m2 envs2 hm2 hn2

/-- A freshly created assignment has no bound variable. -/
theorem mvLookup_new (keys : List Nat) (k : Nat) :
    ∀ ob, mvLookup (keys.map fun key => (key, (none : Option ID))) k
        = some ob → ob = none := by
  induction keys with
  | nil => intro ob h; simp [mvLookup] at h
  | cons a rest ih =>
    intro ob h
    by_cases hak : a = k
    · simp [mvLookup, hak] at h
      exact h.symm
    · simp [mvLookup, hak] at h
      exact ih ob h

/-- C7: every environment emitted by the join over a rule's body (with
the initial all-unbound assignment built by `Rule::apply`) binds only
values accepted by every applicable constraint, and makes every rule
expression evaluate to `Bool(true)`. -/
theorem c7_join_soundness (rx : String → String → Bool) (r : Rule)
    (facts : List Fact) (envs : List Env) (env : Env)
    (hc : combine rx (MatchedVariables.new (bodyVariables r.body)) r.body
        r.constraints r.expressions facts = some envs)
    (he : env ∈ envs) :
    envRespects rx r.constraints env ∧ exprsHold r.expressions env := by
  have hinit : mvRespects rx r.constraints
      (MatchedVariables.new (bodyVariables r.body)) := by
    intro k v hkv c hcm
    exact absurd (mvLookup_new (bodyVariables r.body) k (some v) hkv)
      (by simp)
  exact combineAux_sound rx r.constraints r.expressions facts _ r.body _
    envs hinit hc env he

/-- Witness for C7: a join over one constrained predicate with one
boolean expression emits the environment binding variable 0 to 5. -/
theorem c7_witness :
    envRespects (fun _ _ => false)
        [⟨0, ConstraintKind.Int (IntConstraint.LessThan 10)⟩]
        [(0, ID.Integer 5)] ∧
      exprsHold [⟨[Op.Value (ID.Bool true)]⟩] [(0, ID.Integer 5)] :=
  c7_join_soundness (fun _ _ => false)
    ⟨⟨2, [ID.Variable 0]⟩, [⟨1, [ID.Variable 0]⟩],
      [⟨0, ConstraintKind.Int (IntConstraint.LessThan 10)⟩],
      [⟨[Op.Value (ID.Bool true)]⟩]⟩
    [⟨⟨1, [ID.Integer 5]⟩⟩] [[(0, ID.Integer 5)]] [(0, ID.Integer 5)]
    rfl (by decide)

end Datalog
